import Mathlib

/-!
# Column-associative indexing and microtagged tag lookup

A shallow embedding of

* `src/mem/cache/tags/indexing_policies/column_associative.{hh,cc}`
  (`ColumnAssociative::hash`, `extractSet`, `regenerateAddr`, `getPossibleEntries`), and
* `src/mem/cache/tags/microtagged_tags.cc`
  (`MicrotaggedTags::hash`, `invalidate`, `findBlock`).

`Addr` is `uint64_t`; it is embedded as `Nat`, with an explicit `% 2 ^ 64`, `% 2 ^ 32` or
`% 2 ^ 8` at every place where the C++ value is narrowed or may wrap.  A pointer to a cache
block is embedded as the block's `(set, way)` position, of which there is exactly one per block.
-/

namespace Gem5

/-! ## Helpers of `base/intmath.hh` and `base/bitfield.hh` -/

/-- Halving loop behind `floorLog2`: the number of times `x` can be halved before it drops
below 2, at most `fuel` times. -/
def floorLog2Aux : Nat → Nat → Nat
  | 0, _ => 0
  | fuel + 1, x => if 2 ≤ x then floorLog2Aux fuel (x / 2) + 1 else 0

/-- Modelled from the spec: `floorLog2(unsigned x)` of `base/intmath.hh`, which is not among
the sources; the spec gives it as "compute floor(log2(n))".  The argument is a 32-bit
`unsigned`, for which 31 halvings always reach a value below 2. -/
def floorLog2 (x : Nat) : Nat := floorLog2Aux 31 (x % 2 ^ 32)

/-- Modelled from the spec: `isPowerOf2(n)` of `base/intmath.hh`, which is not among the
sources: `n != 0 && (n & (n - 1)) == 0`. -/
def isPowerOf2 (n : Nat) : Bool := n != 0 && (n &&& (n - 1)) == 0

/-- Modelled from the spec: `mask(nbits)` of `base/bitfield.hh`, which is not among the
sources: a word whose `nbits` low bits are set,
`(nbits == 64) ? (uint64_t)-1LL : (1ULL << nbits) - 1`. -/
def mask (nbits : Int) : Nat :=
  if nbits = 64 then 2 ^ 64 - 1 else (1 <<< nbits.toNat) % 2 ^ 64 - 1

/-- Modelled from the spec: `bits<Addr>(val, first, last)` of `base/bitfield.hh`, which is not
among the sources ("extract arbitrary bit ranges from an integer address"):
`nbits = first - last + 1; return (val >> last) & mask(nbits)`. -/
def bits (val : Nat) (first last : Int) : Nat :=
  (val >>> last.toNat) &&& mask (first - last + 1)

/-- Modelled from the spec: `insertBits<Addr, uint8_t>(val, first, last, bit_val)` of
`base/bitfield.hh`, which is not among the sources ("insert arbitrary bit ranges"):
`T t_bit_val = bit_val; T bmask = mask(first - last + 1) << last;
return ((t_bit_val << last) & bmask) | (val & ~bmask)`.
The value to insert is passed as a `uint8_t`, hence the `% 2 ^ 8`.
A negative `last` is a negative shift count, undefined in C++; the embedding shifts by zero
there, and no statement below relies on it. -/
def insertBits (val : Nat) (first last : Int) (bit_val : Nat) : Nat :=
  let t_bit_val := bit_val % 2 ^ 8
  let bmask := (mask (first - last + 1) <<< last.toNat) % 2 ^ 64
  (((t_bit_val <<< last.toNat) % 2 ^ 64) &&& bmask) ||| (val &&& ((2 ^ 64 - 1) ^^^ bmask))

/-! ## The indexing policy -/

/-- The position of a block in the backing array `sets[set][way]`; it stands for the
`ReplaceableEntry*` the C++ code passes around (`getSet()`, `getWay()`). -/
structure Slot where
  set : Nat
  way : Nat
deriving DecidableEq, Repr

/-- Modelled from the spec: the configuration held by `BaseIndexingPolicy`, which is not among
the sources: the number of sets, the associativity and the block size in bytes. -/
structure Params where
  numSets : Nat
  assoc : Nat
  entrySize : Nat
deriving DecidableEq, Repr

/-- Modelled from the spec: `setShift` of `BaseIndexingPolicy`, the number of block-offset bits,
`floorLog2(entry_size)`. -/
def setShift (p : Params) : Nat := floorLog2 p.entrySize

/-- Modelled from the spec: `tagShift` of `BaseIndexingPolicy`,
`setShift + floorLog2(numSets)`. -/
def tagShift (p : Params) : Nat := setShift p + floorLog2 p.numSets

/-- Modelled from the spec: `BaseIndexingPolicy::extractTag`, `addr >> tagShift`
("the region above the set+offset bits"). -/
def extractTag (p : Params) (addr : Nat) : Nat := addr >>> tagShift p

namespace ColumnAssociative

/-- The constructor's `msbShift(floorLog2(numSets) + floorLog2(assoc) - 1)`, a C++ `int`. -/
def msbShift (p : Params) : Int :=
  (floorLog2 p.numSets : Int) + (floorLog2 p.assoc : Int) - 1

/-- The width `msbShift + 1` of each of the two fields that `hash` folds together. -/
def fieldWidth (p : Params) : Nat := floorLog2 p.numSets + floorLog2 p.assoc

/-- The low field of `hash`: its `addr1 = bits<Addr>(addr, msbShift, 0)`. -/
def lowField (p : Params) (addr : Nat) : Nat := bits addr (msbShift p) 0

/-- The high field of `hash`: its
`addr2 = bits<Addr>(addr, 2 * (msbShift + 1) - 1, msbShift + 1)`. -/
def highField (p : Params) (addr : Nat) : Nat :=
  bits addr (2 * (msbShift p + 1) - 1) (msbShift p + 1)

/-- The per-way transform of the high field, shared by `hash` and `regenerateAddr`:
`shifted_addr2 = addr2; if (way >= 1) shifted_addr2 = insertBits<Addr, uint8_t>(addr2 >> way,
msbShift, msbShift - way + 1, bits<Addr>(addr2, way - 1, 0));`. -/
def shiftedAddr2 (p : Params) (addr2 way : Nat) : Nat :=
  if way ≥ 1 then
    insertBits (addr2 >>> way) (msbShift p) (msbShift p - (way : Int) + 1)
      (bits addr2 ((way : Int) - 1) 0)
  else addr2

/-- `ColumnAssociative::hash(addr, way)`. -/
def hash (p : Params) (addr way : Nat) : Nat :=
  let addr1 := bits addr (msbShift p) 0
  let addr2 := bits addr (2 * (msbShift p + 1) - 1) (msbShift p + 1)
  let shifted_addr2 := shiftedAddr2 p addr2 way
  addr1 ^^^ shifted_addr2

/-- `ColumnAssociative::extractSet(addr, way)`; the result type is `uint32_t`. -/
def extractSet (p : Params) (addr way : Nat) : Nat :=
  hash p (addr >>> setShift p) way % 2 ^ 32

/-- `ColumnAssociative::regenerateAddr(tag, entry)`.  The body reads an identifier `way` that
the function does not declare; it is a parameter here. -/
def regenerateAddr (p : Params) (tag : Nat) (entry : Slot) (way : Nat) : Nat :=
  let index := ((entry.set <<< floorLog2 p.assoc) % 2 ^ 32) ||| entry.way
  let addr2 := bits tag (msbShift p) 0
  let shifted_addr2 := shiftedAddr2 p addr2 way
  (((tag <<< tagShift p) % 2 ^ 64) ||| (((index ^^^ shifted_addr2) <<< setShift p) % 2 ^ 64))

/-- `ColumnAssociative::getPossibleEntries(addr)`: the loop over `way = 0 .. assoc - 1` that
pushes `sets[index >> floorLog2(assoc)][index & (assoc-1)]`. -/
def getPossibleEntries (p : Params) (addr : Nat) : List Slot :=
  (List.range p.assoc).map fun way =>
    let index := extractSet p addr way
    Slot.mk (index >>> floorLog2 p.assoc) (index &&& (p.assoc - 1))

end ColumnAssociative

/-! ## The tag store -/

/-- Modelled from the spec: the fields of `CacheBlk` that the tag store reads and writes
(`cache_blk.hh` is not among the sources): the stored tag and microtag, the valid and secure
status bits, and the handle of the replacement-policy data. -/
structure CacheBlk where
  tag : Nat
  microtag : Nat
  valid : Bool
  secure : Bool
  replacementData : Nat
deriving DecidableEq, Repr

/-- The state of a `MicrotaggedTags` object: the blocks by position, the `tagsInUse`
statistic, and the handles passed so far to `replacementPolicy->invalidate`. -/
structure TagStore where
  blks : Slot → CacheBlk
  tagsInUse : Int
  rpInvalidated : List Nat

/-- Modelled from the spec: what `findBlock` uses of its `indexingPolicy`, a
`BaseIndexingPolicy*` with virtual `getPossibleEntries`, and `extractTag`. -/
structure IndexingPolicy where
  extractTag : Nat → Nat
  getPossibleEntries : Nat → List Slot

/-- The column-associative policy as the tag store's indexing policy. -/
def ColumnAssociative.policy (p : Params) : IndexingPolicy where
  extractTag := extractTag p
  getPossibleEntries := ColumnAssociative.getPossibleEntries p

namespace MicrotaggedTags

/-- `MicrotaggedTags::hash(addr)`, the microtag of an address. -/
def hash (addr : Nat) : Nat :=
  let lower_top5 := bits addr 19 15
  let upper_top5 := bits addr 24 20
  let top5 := ((lower_top5 ^^^ upper_top5) <<< 3) % 2 ^ 64
  let lower3 := 0
  let lower3 := lower3 ||| (((bits addr 25 25 ^^^ bits addr 14 14) <<< 2) % 2 ^ 64)
  let lower3 := lower3 ||| (((bits addr 26 26 ^^^ bits addr 13 13) <<< 1) % 2 ^ 64)
  let lower3 := lower3 ||| (bits addr 27 27 ^^^ bits addr 12 12)
  top5 ||| lower3

/-- The `for (const auto& location : entries)` loop of `findBlock`. -/
def findBlockLoop (st : TagStore) (tag microtag : Nat) (is_secure : Bool) :
    List Slot → Option Slot
  | [] => none
  | location :: rest =>
    let blk := st.blks location
    if blk.microtag = microtag then
      if blk.tag = tag ∧ blk.valid = true ∧ blk.secure = is_secure then
        some location
      else
        none
    else
      findBlockLoop st tag microtag is_secure rest

/-- `MicrotaggedTags::findBlock(addr, is_secure)`; `none` is `nullptr`. -/
def findBlock (ip : IndexingPolicy) (st : TagStore) (addr : Nat) (is_secure : Bool) :
    Option Slot :=
  let tag := ip.extractTag addr
  let microtag := hash addr
  let entries := ip.getPossibleEntries addr
  findBlockLoop st tag microtag is_secure entries

/-- Modelled from the spec: the effect on the block of `BaseTags::invalidate(blk)`, which is
not among the sources: "Clears `valid`; ... does not zero `tag`/`microtag`". -/
def baseInvalidate (blk : CacheBlk) : CacheBlk :=
  { blk with valid := false }

/-- `MicrotaggedTags::invalidate(blk)`: `BaseTags::invalidate(blk)`, `stats.tagsInUse--`,
`replacementPolicy->invalidate(blk->replacementData)`. -/
def invalidate (st : TagStore) (blk : Slot) : TagStore where
  blks := fun s => if s = blk then baseInvalidate (st.blks s) else st.blks s
  tagsInUse := st.tagsInUse - 1
  rpInvalidated := st.rpInvalidated ++ [(st.blks blk).replacementData]

/-- Short-circuit reference for `findBlock`, written from the specification: take the first
candidate, in order, whose stored microtag equals the computed one; without one the lookup
misses; with one, it is the hit exactly when it is valid with matching tag and security flag,
and the lookup misses otherwise. -/
def findBlockRef (ip : IndexingPolicy) (st : TagStore) (addr : Nat) (is_secure : Bool) :
    Option Slot :=
  match (ip.getPossibleEntries addr).find? (fun c => decide ((st.blks c).microtag = hash addr)) with
  | none => none
  | some c =>
    if (st.blks c).tag = ip.extractTag addr ∧ (st.blks c).valid = true ∧
        (st.blks c).secure = is_secure then
      some c
    else
      none

end MicrotaggedTags

/-! ## Construction -/

/-- The fatal errors in which construction can end. -/
inductive Fatal where
  /-- The number of sets is not a power of two. -/
  | numSets
  /-- The associativity is not a power of two. -/
  | assoc
  /-- The message "Block size must be at least 4 and a power of 2". -/
  | blockSize
  /-- The message "An indexing policy is required". -/
  | noIndexingPolicy
deriving DecidableEq, Repr

/-- Modelled from the spec: the constructor of `BaseIndexingPolicy`, which is not among the
sources; the spec has "associativity/set count not powers of two" as configuration errors
that are "detected once at construction time, fatal". -/
def BaseIndexingPolicy.construct (p : Params) : Except Fatal Params :=
  if isPowerOf2 p.numSets = false then Except.error Fatal.numSets
  else if isPowerOf2 p.assoc = false then Except.error Fatal.assoc
  else Except.ok p

/-- The members of a constructed `ColumnAssociative`: those of its base, and `msbShift`. -/
structure ColumnAssociative.Object where
  base : Params
  msbShift : Int
deriving DecidableEq, Repr

/-- The constructor `ColumnAssociative::ColumnAssociative(p)`: the base constructor, then
`msbShift(floorLog2(numSets) + floorLog2(assoc) - 1)`, and an empty body. -/
def ColumnAssociative.construct (p : Params) : Except Fatal ColumnAssociative.Object :=
  match BaseIndexingPolicy.construct p with
  | Except.error e => Except.error e
  | Except.ok base =>
    Except.ok ⟨base, (floorLog2 base.numSets : Int) + (floorLog2 base.assoc : Int) - 1⟩

/-- `ColumnAssociativeParams::create()`: `return new ColumnAssociative(this)`. -/
def ColumnAssociativeParams.create (p : Params) : Except Fatal ColumnAssociative.Object :=
  ColumnAssociative.construct p

/-- Modelled from the spec: the fields of `MicrotaggedTagsParams` that construction reads
(`params/MicrotaggedTags.hh` is not among the sources).  The two policies are pointers;
`none` is a null pointer, and a replacement policy is identified by a handle. -/
structure MicrotaggedTagsParams where
  size : Nat
  block_size : Nat
  assoc : Nat
  sequential_access : Bool
  indexing_policy : Option IndexingPolicy
  replacement_policy : Option Nat

/-- The members a constructed `MicrotaggedTags` holds: `blkSize` and `indexingPolicy` of
`BaseTags`, and `allocAssoc`, the length of `blks`, `sequentialAccess` and
`replacementPolicy`. -/
structure MicrotaggedTags.Object where
  blkSize : Nat
  indexingPolicy : Option IndexingPolicy
  allocAssoc : Nat
  numBlks : Nat
  sequentialAccess : Bool
  replacementPolicy : Option Nat

/-- The constructor `MicrotaggedTags::MicrotaggedTags(p)`: the member initialisers
`allocAssoc(p->assoc), blks(p->size / p->block_size),
sequentialAccess(p->sequential_access), replacementPolicy(p->replacement_policy)`, then
`if (blkSize < 4 || !isPowerOf2(blkSize)) fatal(...)`.  Of `BaseTags(p)`, which is not among
the sources, it takes that it copies the block size and the indexing policy.  For a block
size of 0 the C++ division is undefined; here it is 0, and no statement below evaluates it. -/
def MicrotaggedTags.construct (p : MicrotaggedTagsParams) :
    Except Fatal MicrotaggedTags.Object :=
  let obj : MicrotaggedTags.Object :=
    { blkSize := p.block_size
      indexingPolicy := p.indexing_policy
      allocAssoc := p.assoc
      numBlks := p.size / p.block_size
      sequentialAccess := p.sequential_access
      replacementPolicy := p.replacement_policy }
  if obj.blkSize < 4 ∨ isPowerOf2 obj.blkSize = false then Except.error Fatal.blockSize
  else Except.ok obj

/-- `MicrotaggedTagsParams::create()`: `fatal_if(!indexing_policy, ...)`, then
`return new MicrotaggedTags(this)`. -/
def MicrotaggedTagsParams.create (p : MicrotaggedTagsParams) :
    Except Fatal MicrotaggedTags.Object :=
  if p.indexing_policy.isNone then Except.error Fatal.noIndexingPolicy
  else MicrotaggedTags.construct p

/-! ## References written from the specification -/

/-- The microtag as the specification spells it out:
`((bits[19:15] XOR bits[24:20]) << 3) | ((bit25 XOR bit14) << 2) | ((bit26 XOR bit13) << 1)
| (bit27 XOR bit12)`, with bit `i` of `addr` written `addr / 2 ^ i % 2`. -/
def microtagRef (addr : Nat) : Nat :=
  (((addr / 2 ^ 15 % 2 ^ 5) ^^^ (addr / 2 ^ 20 % 2 ^ 5)) * 2 ^ 3) |||
    (((addr / 2 ^ 25 % 2) ^^^ (addr / 2 ^ 14 % 2)) * 2 ^ 2) |||
    (((addr / 2 ^ 26 % 2) ^^^ (addr / 2 ^ 13 % 2)) * 2 ^ 1) |||
    ((addr / 2 ^ 27 % 2) ^^^ (addr / 2 ^ 12 % 2))

/-- The right rotation of the `w`-bit value `h` by `k`:
`rotr_w(h, k) = (h >> k) | ((h mod 2^k) << (w - k))`. -/
def rotr (w h k : Nat) : Nat := (h >>> k) ||| ((h % 2 ^ k) <<< (w - k))

/-- The set index as XOR with a field-confined rotation: with `w = msbShift + 1`,
`low = bits [0 .. w-1]` and `high = bits [w .. 2w-1]` of the input, `low XOR rotr_w(high, way)`. -/
def hashRef (w x way : Nat) : Nat := (x % 2 ^ w) ^^^ rotr w (x / 2 ^ w % 2 ^ w) way

/-! ## Concrete configurations and states -/

/-- A fully associative configuration with 2 ways, whose skew fields are 1 bit wide. -/
def cfg1x2 : Params := ⟨1, 2, 64⟩

/-- A fully associative configuration with 8 ways, whose skew fields are 3 bits wide. -/
def cfg1x8 : Params := ⟨1, 8, 64⟩

/-- A configuration with `2 ^ 31` sets of 4 ways, whose skew fields are 33 bits wide. -/
def cfgWide : Params := ⟨2 ^ 31, 4, 64⟩

/-- Parameters of a tag store with 64-byte blocks, the column-associative policy of `cfg42`
as its indexing policy, and no replacement policy. -/
def paramsNoRP : MicrotaggedTagsParams where
  size := 512
  block_size := 64
  assoc := 2
  sequential_access := false
  indexing_policy := some (ColumnAssociative.policy (⟨4, 2, 64⟩ : Params))
  replacement_policy := none


/-- The configuration of the specification's scenario: 4 sets, 2 ways, 64-byte blocks. -/
def cfg42 : Params := ⟨4, 2, 64⟩

/-- A block that was never filled. -/
def emptyBlk : CacheBlk := ⟨0, 0, false, false, 0⟩

/-- The block that installing address `a` (non-secure) leaves in a slot of `cfg42`. -/
def installed (a : Nat) : CacheBlk :=
  ⟨extractTag cfg42 a, MicrotaggedTags.hash a, true, false, 0⟩

/-- The configuration the specification names for exhaustive checks: 8 sets, 4 ways. -/
def cfg84 : Params := ⟨8, 4, 64⟩

/-- A 16-way configuration with 64 sets, whose skew fields are 10 bits wide. -/
def cfg64x16 : Params := ⟨64, 16, 64⟩

/-- The state of `cfg42` after address `0x1000` was installed in its only candidate slot. -/
def storeA : TagStore where
  blks := fun s => if s = ⟨0, 0⟩ then installed 0x1000 else emptyBlk
  tagsInUse := 1
  rpInvalidated := []

/-- The state of `cfg42` after `0x40` was installed in slot (0,1) and then `0x200`, whose
candidates are (0,1) and (2,0), in slot (2,0). -/
def storeB : TagStore where
  blks := fun s =>
    if s = ⟨0, 1⟩ then installed 0x40 else if s = ⟨2, 0⟩ then installed 0x200 else emptyBlk
  tagsInUse := 2
  rpInvalidated := []

/-- A state of `cfg42` with `0x200` installed in slot (2,0) and slot (0,1) invalid, holding
the stale tag `t` and the stale microtag `m`. -/
def storeStale (t m : Nat) : TagStore where
  blks := fun s =>
    if s = ⟨0, 1⟩ then ⟨t, m, false, false, 0⟩
    else if s = ⟨2, 0⟩ then installed 0x200 else emptyBlk
  tagsInUse := 1
  rpInvalidated := []

/-- The state of `cfg42` after `0x4C0`, whose candidates are (0,1) and (1,0), was installed
in slot (1,0); no other block is held. -/
def storeC : TagStore where
  blks := fun s => if s = ⟨1, 0⟩ then installed 0x4C0 else emptyBlk
  tagsInUse := 1
  rpInvalidated := []

/-! ## Bit-level facts about the helpers -/

theorem floorLog2Aux_le (fuel x : Nat) : floorLog2Aux fuel x ≤ fuel := by
  induction fuel generalizing x with
  | zero => simp [floorLog2Aux]
  | succ n ih =>
    unfold floorLog2Aux
    split
    · have := ih (x / 2); omega
    · omega

theorem floorLog2_le (x : Nat) : floorLog2 x ≤ 31 := floorLog2Aux_le 31 _

theorem mask_ofNat (n : Nat) (hn : n ≤ 64) : mask (n : Int) = 2 ^ n - 1 := by
  unfold mask
  by_cases h : n = 64
  · subst h; simp
  · have hlt : n < 64 := by omega
    have hp : 2 ^ n < 2 ^ 64 := Nat.pow_lt_pow_right (by decide) hlt
    have h2 : ((n : Int) = 64) = False := by
      simp; omega
    simp only [h2, if_false, Int.toNat_ofNat, Nat.one_shiftLeft, Nat.mod_eq_of_lt hp]

theorem bits_ofNat (val first1 last : Nat) (h : first1 - last ≤ 64) (hl : last ≤ first1) :
    bits val ((first1 : Int) - 1) (last : Int) = (val >>> last) % 2 ^ (first1 - last) := by
  unfold bits
  have : ((first1 : Int) - 1 - (last : Int) + 1) = ((first1 - last : Nat) : Int) := by omega
  rw [this, mask_ofNat _ h, Int.toNat_ofNat, Nat.and_pow_two_sub_one_eq_mod]

namespace ColumnAssociative

theorem fieldWidth_le (p : Params) : fieldWidth p ≤ 62 := by
  have h1 := floorLog2_le p.numSets
  have h2 := floorLog2_le p.assoc
  unfold fieldWidth; omega

theorem msbShift_eq (p : Params) : msbShift p = (fieldWidth p : Int) - 1 := by
  simp [msbShift, fieldWidth]

theorem lowField_eq (p : Params) (addr : Nat) :
    lowField p addr = addr % 2 ^ fieldWidth p := by
  have hw := fieldWidth_le p
  unfold lowField
  rw [msbShift_eq]
  have := bits_ofNat addr (fieldWidth p) 0 (by omega) (by omega)
  simpa using this

theorem highField_eq (p : Params) (addr : Nat) :
    highField p addr = (addr >>> fieldWidth p) % 2 ^ fieldWidth p := by
  have hw := fieldWidth_le p
  unfold highField
  rw [msbShift_eq]
  have h1 : (2 * ((fieldWidth p : Int) - 1 + 1) - 1) = ((2 * fieldWidth p : Nat) : Int) - 1 := by
    push_cast; ring
  have h2 : ((fieldWidth p : Int) - 1 + 1) = ((fieldWidth p : Nat) : Int) := by ring
  rw [h1, h2, bits_ofNat addr (2 * fieldWidth p) (fieldWidth p) (by omega) (by omega)]
  congr 2
  omega

theorem lowField_lt (p : Params) (addr : Nat) : lowField p addr < 2 ^ fieldWidth p := by
  rw [lowField_eq]
  exact Nat.mod_lt _ (Nat.two_pow_pos _)

theorem highField_lt (p : Params) (addr : Nat) : highField p addr < 2 ^ fieldWidth p := by
  rw [highField_eq]
  exact Nat.mod_lt _ (Nat.two_pow_pos _)

theorem hash_eq_fields (p : Params) (addr way : Nat) :
    hash p addr way = lowField p addr ^^^ shiftedAddr2 p (highField p addr) way := rfl

theorem shiftedAddr2_zero (p : Params) (x : Nat) : shiftedAddr2 p x 0 = x := by
  simp [shiftedAddr2]

theorem shiftedAddr2_eq (p : Params) (x way : Nat) (h1 : 1 ≤ way) (hw : way ≤ fieldWidth p) :
    shiftedAddr2 p x way =
      (((((x % 2 ^ way) % 2 ^ 8) <<< (fieldWidth p - way)) % 2 ^ 64) &&&
          (((2 ^ way - 1) <<< (fieldWidth p - way)) % 2 ^ 64)) |||
        ((x >>> way) &&&
          ((2 ^ 64 - 1) ^^^ (((2 ^ way - 1) <<< (fieldWidth p - way)) % 2 ^ 64))) := by
  have hle := fieldWidth_le p
  have hlast : msbShift p - (way : Int) + 1 = ((fieldWidth p - way : Nat) : Int) := by
    rw [msbShift_eq]; omega
  have hn : msbShift p - ((fieldWidth p - way : Nat) : Int) + 1 = ((way : Nat) : Int) := by
    rw [msbShift_eq]; omega
  have hb : bits x ((way : Int) - 1) 0 = x % 2 ^ way := by
    have := bits_ofNat x way 0 (by omega) (by omega)
    simpa using this
  unfold shiftedAddr2 insertBits
  simp only [ge_iff_le, h1, if_true, hlast, hn, hb, Int.toNat_ofNat, mask_ofNat way (by omega)]

/-- Bit `i` of the transformed high field, for a way up to the field width: the bits of the
field move down by `way`, and of the `way` bits that fall off, those that fit a `uint8_t`
re-enter at the top of the field. -/
theorem shiftedAddr2_testBit (p : Params) (x way i : Nat) (hw : way ≤ fieldWidth p)
    (hx : x < 2 ^ fieldWidth p) :
    (shiftedAddr2 p x way).testBit i =
      if i < fieldWidth p - way then x.testBit (i + way)
      else (decide (i < fieldWidth p) && decide (i - (fieldWidth p - way) < 8) &&
        x.testBit (i - (fieldWidth p - way))) := by
  have hle := fieldWidth_le p
  have hhi : ∀ j, fieldWidth p ≤ j → x.testBit j = false := by
    intro j hj
    exact Nat.testBit_lt_two_pow (lt_of_lt_of_le hx (Nat.pow_le_pow_right (by decide) hj))
  by_cases h0 : way = 0
  · subst h0
    rw [shiftedAddr2_zero]
    by_cases hi : i < fieldWidth p
    · simp [hi]
    · simp [hi, hhi i (by omega)]
  · rw [shiftedAddr2_eq p x way (by omega) hw]
    simp only [Nat.testBit_or, Nat.testBit_and, Nat.testBit_mod_two_pow, Nat.testBit_shiftLeft,
      Nat.testBit_shiftRight, Nat.testBit_xor, Nat.testBit_two_pow_sub_one]
    by_cases hi : i < fieldWidth p - way
    · have hnot : ¬ (i ≥ fieldWidth p - way) := by omega
      have h64 : i < 64 := by omega
      simp [hi, hnot, h64, Nat.add_comm]
    · have hge : i ≥ fieldWidth p - way := by omega
      by_cases hi2 : i < fieldWidth p
      · have h64 : i < 64 := by omega
        have hlt : i - (fieldWidth p - way) < way := by omega
        simp [hi, hge, hi2, h64, hlt]
      · have : x.testBit (way + i) = false := hhi _ (by omega)
        have hnlt : ¬ (i - (fieldWidth p - way) < way) := by omega
        simp [hi, hge, hi2, this, hnlt]

theorem shiftedAddr2_lt (p : Params) (x way : Nat) (hw : way ≤ fieldWidth p)
    (hx : x < 2 ^ fieldWidth p) : shiftedAddr2 p x way < 2 ^ fieldWidth p := by
  apply Nat.lt_pow_two_of_testBit
  intro i hi
  rw [shiftedAddr2_testBit p x way i hw hx]
  have h1 : ¬ (i < fieldWidth p - way) := by omega
  have h2 : ¬ (i < fieldWidth p) := by omega
  simp [h1, h2]

/-- For a way of at most 8, and at most the field width, the transform of the high field is
one-to-one on the values of the field. -/
theorem shiftedAddr2_inj (p : Params) (x y way : Nat) (hw : way ≤ fieldWidth p)
    (h8 : way ≤ 8) (hx : x < 2 ^ fieldWidth p) (hy : y < 2 ^ fieldWidth p)
    (h : shiftedAddr2 p x way = shiftedAddr2 p y way) : x = y := by
  apply Nat.eq_of_testBit_eq
  intro j
  by_cases hj : fieldWidth p ≤ j
  · rw [Nat.testBit_lt_two_pow (lt_of_lt_of_le hx (Nat.pow_le_pow_right (by decide) hj)),
      Nat.testBit_lt_two_pow (lt_of_lt_of_le hy (Nat.pow_le_pow_right (by decide) hj))]
  · by_cases hjw : way ≤ j
    · have hx1 := shiftedAddr2_testBit p x way (j - way) hw hx
      have hy1 := shiftedAddr2_testBit p y way (j - way) hw hy
      have hlt : j - way < fieldWidth p - way := by omega
      have hadd : j - way + way = j := by omega
      simp only [hlt, if_true, hadd] at hx1 hy1
      rw [← hx1, ← hy1, h]
    · have hx1 := shiftedAddr2_testBit p x way (j + (fieldWidth p - way)) hw hx
      have hy1 := shiftedAddr2_testBit p y way (j + (fieldWidth p - way)) hw hy
      have hnlt : ¬ (j + (fieldWidth p - way) < fieldWidth p - way) := by omega
      have hlt : j + (fieldWidth p - way) < fieldWidth p := by omega
      have h8j : j < 8 := by omega
      simp only [hnlt, if_false, hlt, Nat.add_sub_cancel, h8j, decide_True, Bool.true_and]
        at hx1 hy1
      rw [← hx1, ← hy1, h]

theorem hash_lt (p : Params) (addr way : Nat) (hw : way ≤ fieldWidth p) :
    hash p addr way < 2 ^ fieldWidth p := by
  rw [hash_eq_fields]
  exact Nat.xor_lt_two_pow (lowField_lt p addr)
    (shiftedAddr2_lt p _ way hw (highField_lt p _))

end ColumnAssociative

/-! ## Lookup: `findBlock` -/

namespace MicrotaggedTags

theorem findBlockLoop_eq_find (st : TagStore) (tag microtag : Nat) (is_secure : Bool)
    (l : List Slot) :
    findBlockLoop st tag microtag is_secure l =
      (match l.find? (fun c => decide ((st.blks c).microtag = microtag)) with
       | none => none
       | some c =>
         if (st.blks c).tag = tag ∧ (st.blks c).valid = true ∧ (st.blks c).secure = is_secure
         then some c else none) := by
  induction l with
  | nil => rfl
  | cons c rest ih =>
    by_cases hm : (st.blks c).microtag = microtag
    · simp [findBlockLoop, List.find?_cons, hm]
    · simp [findBlockLoop, List.find?_cons, hm, ih]

/-- C1: `findBlock(addr, is_secure)` equals the short-circuit reference: the first candidate of
`getPossibleEntries(addr)` whose stored microtag equals `hash(addr)` decides the lookup alone;
it is the result when it is valid with matching tag and security flag, the result is not-found
otherwise, and not-found when no candidate has the microtag. -/
theorem findBlock_eq_findBlockRef (ip : IndexingPolicy) (st : TagStore) (addr : Nat)
    (is_secure : Bool) :
    findBlock ip st addr is_secure = findBlockRef ip st addr is_secure := by
  unfold findBlock findBlockRef
  exact findBlockLoop_eq_find st _ _ is_secure _

theorem findBlockLoop_sound (st : TagStore) (tag microtag : Nat) (is_secure : Bool)
    (l : List Slot) (b : Slot) (h : findBlockLoop st tag microtag is_secure l = some b) :
    b ∈ l ∧ (st.blks b).valid = true ∧ (st.blks b).tag = tag ∧
      (st.blks b).secure = is_secure ∧ (st.blks b).microtag = microtag := by
  induction l with
  | nil => simp [findBlockLoop] at h
  | cons c rest ih =>
    by_cases hm : (st.blks c).microtag = microtag
    · by_cases hf : (st.blks c).tag = tag ∧ (st.blks c).valid = true ∧
          (st.blks c).secure = is_secure
      · simp only [findBlockLoop, hm, hf, and_self, if_true, Option.some.injEq] at h
        subst h
        exact ⟨List.mem_cons_self _ _, hf.2.1, hf.1, hf.2.2, hm⟩
      · simp [findBlockLoop, hm, hf] at h
    · simp only [findBlockLoop, hm, if_false] at h
      obtain ⟨h1, h2⟩ := ih h
      exact ⟨List.mem_cons_of_mem _ h1, h2⟩

/-- C2: soundness of a hit: when `findBlock(addr, is_secure)` returns a slot `b`, `b` is one of
the entries of `getPossibleEntries(addr)`, it is valid, its tag is `extractTag(addr)`, its
security flag is `is_secure` and its microtag is `hash(addr)`. -/
theorem findBlock_sound (ip : IndexingPolicy) (st : TagStore) (addr : Nat) (is_secure : Bool)
    (b : Slot) (h : findBlock ip st addr is_secure = some b) :
    b ∈ ip.getPossibleEntries addr ∧ (st.blks b).valid = true ∧
      (st.blks b).tag = ip.extractTag addr ∧ (st.blks b).secure = is_secure ∧
      (st.blks b).microtag = hash addr :=
  findBlockLoop_sound st _ _ is_secure _ b h

theorem findBlock_sound_witness :
    findBlock (ColumnAssociative.policy cfg42) storeA 0x1000 false = some ⟨0, 0⟩ ∧
      ((⟨0, 0⟩ : Slot) ∈ (ColumnAssociative.policy cfg42).getPossibleEntries 0x1000 ∧
        (storeA.blks ⟨0, 0⟩).valid = true ∧
        (storeA.blks ⟨0, 0⟩).tag = (ColumnAssociative.policy cfg42).extractTag 0x1000 ∧
        (storeA.blks ⟨0, 0⟩).secure = false ∧
        (storeA.blks ⟨0, 0⟩).microtag = hash 0x1000) :=
  ⟨by decide, findBlock_sound (ColumnAssociative.policy cfg42) storeA 0x1000 false ⟨0, 0⟩
    (by decide)⟩

theorem findBlockLoop_skip (st : TagStore) (tag microtag : Nat) (is_secure : Bool)
    (pre rest : List Slot) (hpre : ∀ c ∈ pre, (st.blks c).microtag ≠ microtag) :
    findBlockLoop st tag microtag is_secure (pre ++ rest) =
      findBlockLoop st tag microtag is_secure rest := by
  induction pre with
  | nil => rfl
  | cons c pre ih =>
    have hc : (st.blks c).microtag ≠ microtag := hpre c (List.mem_cons_self _ _)
    have ht : ∀ d ∈ pre, (st.blks d).microtag ≠ microtag :=
      fun d hd => hpre d (List.mem_cons_of_mem _ hd)
    simp only [List.cons_append, findBlockLoop, hc, if_false]
    exact ih ht

/-- C5, as the code has it: if a slot `b` among `getPossibleEntries(a)` is in the state an
insert of `a` with secure=false leaves it in (valid, tag `extractTag(a)`, microtag `hash(a)`,
not secure), and no candidate that precedes `b` in `getPossibleEntries(a)` stores the microtag
`hash(a)`, then `findBlock(a, false)` returns exactly `b`. -/
theorem findBlock_installed (ip : IndexingPolicy) (st : TagStore) (a : Nat) (b : Slot)
    (pre post : List Slot) (hsplit : ip.getPossibleEntries a = pre ++ b :: post)
    (hpre : ∀ c ∈ pre, (st.blks c).microtag ≠ hash a)
    (hv : (st.blks b).valid = true) (ht : (st.blks b).tag = ip.extractTag a)
    (hm : (st.blks b).microtag = hash a) (hs : (st.blks b).secure = false) :
    findBlock ip st a false = some b := by
  unfold findBlock
  simp only [hsplit]
  rw [findBlockLoop_skip st _ _ false pre (b :: post) hpre]
  simp [findBlockLoop, hv, ht, hm, hs]

theorem findBlock_installed_witness :
    findBlock (ColumnAssociative.policy cfg42) storeA 0x1000 false = some ⟨0, 0⟩ :=
  findBlock_installed (ColumnAssociative.policy cfg42) storeA 0x1000 ⟨0, 0⟩ [] [⟨0, 0⟩]
    (by decide) (by simp) (by decide) (by decide) (by decide) (by decide)

/-- C5 fails as stated: in `storeB` the slot (2,0) is a candidate of `0x200` and holds it
(valid, matching tag and microtag, not secure), yet `findBlock(0x200, false)` misses, because
the earlier candidate (0,1) holds `0x40`, which has the same microtag and another tag. -/
theorem findBlock_installed_counterexample :
    (⟨2, 0⟩ : Slot) ∈ (ColumnAssociative.policy cfg42).getPossibleEntries 0x200 ∧
      (storeB.blks ⟨2, 0⟩).valid = true ∧
      (storeB.blks ⟨2, 0⟩).tag = (ColumnAssociative.policy cfg42).extractTag 0x200 ∧
      (storeB.blks ⟨2, 0⟩).microtag = hash 0x200 ∧
      (storeB.blks ⟨2, 0⟩).secure = false ∧
      findBlock (ColumnAssociative.policy cfg42) storeB 0x200 false = none := by
  decide

theorem findBlockLoop_invalidate (st : TagStore) (tag microtag : Nat) (is_secure : Bool)
    (l : List Slot) (b : Slot) (h : findBlockLoop st tag microtag is_secure l = some b) :
    findBlockLoop (invalidate st b) tag microtag is_secure l = none := by
  induction l with
  | nil => rfl
  | cons c rest ih =>
    by_cases hm : (st.blks c).microtag = microtag
    · by_cases hf : (st.blks c).tag = tag ∧ (st.blks c).valid = true ∧
          (st.blks c).secure = is_secure
      · simp only [findBlockLoop, hm, hf, and_self, if_true, Option.some.injEq] at h
        subst h
        simp [findBlockLoop, invalidate, baseInvalidate, hm]
      · simp [findBlockLoop, hm, hf] at h
    · simp only [findBlockLoop, hm, if_false] at h
      have hm2 : ((invalidate st b).blks c).microtag ≠ microtag := by
        by_cases hcb : c = b
        · simpa [invalidate, baseInvalidate, hcb] using (hcb ▸ hm)
        · simpa [invalidate, hcb] using hm
      simp only [findBlockLoop, hm2, if_false]
      exact ih h

/-- C6: invalidate turns a hit into a miss: when `findBlock(a, s)` returns the slot `b`, then
in the state `invalidate(b)` leaves, `findBlock(a, s)` returns not-found, whatever the other
candidates of `a` hold. -/
theorem findBlock_invalidate (ip : IndexingPolicy) (st : TagStore) (a : Nat) (s : Bool)
    (b : Slot) (h : findBlock ip st a s = some b) :
    findBlock ip (invalidate st b) a s = none :=
  findBlockLoop_invalidate st _ _ s _ b h

theorem findBlock_invalidate_witness :
    findBlock (ColumnAssociative.policy cfg42) storeA 0x1000 false = some ⟨0, 0⟩ ∧
      findBlock (ColumnAssociative.policy cfg42) (invalidate storeA ⟨0, 0⟩) 0x1000 false
        = none :=
  ⟨by decide, findBlock_invalidate (ColumnAssociative.policy cfg42) storeA 0x1000 false
    ⟨0, 0⟩ (by decide)⟩

theorem findBlockLoop_congr (st1 st2 : TagStore) (tag microtag : Nat) (is_secure : Bool)
    (l : List Slot)
    (h : ∀ s, (st1.blks s).valid = (st2.blks s).valid ∧
      (st1.blks s).secure = (st2.blks s).secure ∧
      (st1.blks s).microtag = (st2.blks s).microtag ∧
      ((st1.blks s).valid = true → (st1.blks s).tag = (st2.blks s).tag)) :
    findBlockLoop st1 tag microtag is_secure l = findBlockLoop st2 tag microtag is_secure l := by
  induction l with
  | nil => rfl
  | cons c rest ih =>
    obtain ⟨hv, hs, hm, ht⟩ := h c
    simp only [findBlockLoop, ← hm, ← hs, ← hv, ih]
    by_cases hval : (st1.blks c).valid = true
    · rw [← ht hval]
    · simp [hval]

/-- C7, as the code has it: two store states that agree on the valid flag, the secure flag
and the microtag of every slot and on the tag of every valid slot (they differ only in the
tag fields of invalid slots) give the same `findBlock(addr, is_secure)` result, for every
address and security flag. -/
theorem findBlock_stale_tag (ip : IndexingPolicy) (st1 st2 : TagStore) (addr : Nat)
    (is_secure : Bool)
    (h : ∀ s, (st1.blks s).valid = (st2.blks s).valid ∧
      (st1.blks s).secure = (st2.blks s).secure ∧
      (st1.blks s).microtag = (st2.blks s).microtag ∧
      ((st1.blks s).valid = true → (st1.blks s).tag = (st2.blks s).tag)) :
    findBlock ip st1 addr is_secure = findBlock ip st2 addr is_secure :=
  findBlockLoop_congr st1 st2 _ _ is_secure _ h

theorem storeStale_agree (t1 t2 m : Nat) (s : Slot) :
    ((storeStale t1 m).blks s).valid = ((storeStale t2 m).blks s).valid ∧
      ((storeStale t1 m).blks s).secure = ((storeStale t2 m).blks s).secure ∧
      ((storeStale t1 m).blks s).microtag = ((storeStale t2 m).blks s).microtag ∧
      (((storeStale t1 m).blks s).valid = true →
        ((storeStale t1 m).blks s).tag = ((storeStale t2 m).blks s).tag) := by
  by_cases h1 : s = ⟨0, 1⟩
  · simp [storeStale, h1]
  · simp [storeStale, h1]

theorem findBlock_stale_tag_witness :
    findBlock (ColumnAssociative.policy cfg42) (storeStale 7 0) 0x200 false =
      findBlock (ColumnAssociative.policy cfg42) (storeStale 2 0) 0x200 false :=
  findBlock_stale_tag (ColumnAssociative.policy cfg42) (storeStale 7 0) (storeStale 2 0)
    0x200 false (storeStale_agree 7 2 0)

/-- C7 fails as stated: `storeStale 0 5` and `storeStale 0 0` differ only in the microtag of
the invalid slot (0,1), and `findBlock(0x200, false)` hits slot (2,0) in the first and misses
in the second, where the stale microtag of the invalid slot equals `hash(0x200)`. -/
theorem findBlock_stale_counterexample :
    (∀ s : Slot, ((storeStale 0 5).blks s).valid = ((storeStale 0 0).blks s).valid ∧
        ((storeStale 0 5).blks s).secure = ((storeStale 0 0).blks s).secure ∧
        ((storeStale 0 5).blks s).replacementData =
          ((storeStale 0 0).blks s).replacementData ∧
        (((storeStale 0 5).blks s).valid = true →
          ((storeStale 0 5).blks s).tag = ((storeStale 0 0).blks s).tag ∧
          ((storeStale 0 5).blks s).microtag = ((storeStale 0 0).blks s).microtag)) ∧
      findBlock (ColumnAssociative.policy cfg42) (storeStale 0 5) 0x200 false = some ⟨2, 0⟩ ∧
      findBlock (ColumnAssociative.policy cfg42) (storeStale 0 0) 0x200 false = none := by
  refine ⟨?_, by decide, by decide⟩
  intro s
  by_cases h1 : s = ⟨0, 1⟩
  · simp [storeStale, h1]
  · simp [storeStale, h1]

end MicrotaggedTags

/-! ## Candidate enumeration: `getPossibleEntries` -/

namespace ColumnAssociative

/-- C8, as the code has it: `getPossibleEntries(addr)` returns exactly `assoc` entries, and
for every way below `assoc` its way-th entry is the slot at set
`extractSet(addr, way) >> floorLog2(assoc)` and way-within-set
`extractSet(addr, way) & (assoc - 1)`, where `extractSet(addr, way)` is
`hash(addr >> setShift, way)` reduced modulo `2 ^ 32`, the `uint32_t` it is returned as; that
is `hash(addr >> setShift, way)` itself whenever the way is at most the field width and the
field width at most 32. -/
theorem getPossibleEntries_spec (p : Params) (addr : Nat) :
    (getPossibleEntries p addr).length = p.assoc ∧
      (∀ way, way < p.assoc →
        (getPossibleEntries p addr)[way]? =
          some ⟨extractSet p addr way >>> floorLog2 p.assoc,
            extractSet p addr way &&& (p.assoc - 1)⟩) ∧
      (∀ way, extractSet p addr way = hash p (addr >>> setShift p) way % 2 ^ 32) ∧
      (∀ way, way ≤ fieldWidth p → fieldWidth p ≤ 32 →
        extractSet p addr way = hash p (addr >>> setShift p) way) := by
  refine ⟨by simp [getPossibleEntries], ?_, fun _ => rfl, ?_⟩
  · intro way hway
    simp [getPossibleEntries, List.getElem?_map, List.getElem?_range hway]
  · intro way hway h32
    have h1 := hash_lt p (addr >>> setShift p) way hway
    have h2 : 2 ^ fieldWidth p ≤ 2 ^ 32 := Nat.pow_le_pow_right (by decide) h32
    exact Nat.mod_eq_of_lt (lt_of_lt_of_le h1 h2)

theorem getPossibleEntries_spec_witness :
    (getPossibleEntries cfg42 0x200)[1]? =
        some ⟨extractSet cfg42 0x200 1 >>> floorLog2 cfg42.assoc,
          extractSet cfg42 0x200 1 &&& (cfg42.assoc - 1)⟩ ∧
      extractSet cfg42 0x200 1 = hash cfg42 (0x200 >>> setShift cfg42) 1 :=
  ⟨(getPossibleEntries_spec cfg42 0x200).2.1 1 (by decide),
    (getPossibleEntries_spec cfg42 0x200).2.2.2 1 (by decide) (by decide)⟩

/-- C8 fails as stated: in `cfgWide`, whose fields are 33 bits wide, way 0 of the address
`2 ^ 38` has `hash(addr >> setShift, 0) = 2 ^ 32`, and `extractSet(addr, 0)`, a `uint32_t`,
is 0. -/
theorem extractSet_ne_hash :
    0 < cfgWide.assoc ∧ fieldWidth cfgWide = 33 ∧
      hash cfgWide (2 ^ 38 >>> setShift cfgWide) 0 = 2 ^ 32 ∧
      extractSet cfgWide (2 ^ 38) 0 = 0 ∧
      extractSet cfgWide (2 ^ 38) 0 ≠ hash cfgWide (2 ^ 38 >>> setShift cfgWide) 0 := by
  decide

/-! ## Skewing: `hash`, and what the slot and the tag determine -/

/-- C3 fails on the code: in `cfg42` the block-aligned addresses `0x400` and `0x4C0` have the
same tag, and way 0 of the first selects the same slot (1,0) as way 1 of the second, yet they
are different addresses; with only `0x4C0` installed there, a lookup of `0x400` hits. -/
theorem slot_tag_collision :
    0x400 % cfg42.entrySize = 0 ∧ 0x4C0 % cfg42.entrySize = 0 ∧
      0 < cfg42.assoc ∧ 1 < cfg42.assoc ∧
      extractTag cfg42 0x400 = extractTag cfg42 0x4C0 ∧
      extractSet cfg42 0x400 0 = extractSet cfg42 0x4C0 1 ∧
      (getPossibleEntries cfg42 0x400)[0]? = some ⟨1, 0⟩ ∧
      (getPossibleEntries cfg42 0x4C0)[1]? = some ⟨1, 0⟩ ∧
      (0x400 : Nat) ≠ 0x4C0 ∧
      MicrotaggedTags.findBlock (policy cfg42) storeC 0x400 false = some ⟨1, 0⟩ := by
  decide

/-- C4 fails on the code: in `cfg42` way 0 of the block-aligned address `0x800` selects slot
(2,0), and `regenerateAddr(extractTag(0x800), slot)` is `0x900`, whichever way below `assoc`
its undeclared `way` is read as, the entry's way 0 included. -/
theorem regenerateAddr_roundtrip_fails :
    0x800 % cfg42.entrySize = 0 ∧
      extractSet cfg42 0x800 0 = 4 ∧
      (getPossibleEntries cfg42 0x800)[0]? = some ⟨2, 0⟩ ∧
      regenerateAddr cfg42 (extractTag cfg42 0x800) ⟨2, 0⟩ (Slot.way ⟨2, 0⟩) = 0x900 ∧
      (∀ way, way < cfg42.assoc →
        regenerateAddr cfg42 (extractTag cfg42 0x800) ⟨2, 0⟩ way ≠ 0x800) := by
  decide

/-- C9 fails on the code: in `cfg64x16`, where the field is 10 bits wide, the transform for
way 9 sends the distinct field values 0 and 256 to the same value, because bit 8 of the nine
re-inserted bits does not fit the `uint8_t` they are passed through; the addresses `0` and
`0x1000000` so get the same way-9 set index. -/
theorem shiftedAddr2_way9_collision :
    fieldWidth cfg64x16 = 10 ∧ 9 < cfg64x16.assoc ∧
      (0 : Nat) < 2 ^ fieldWidth cfg64x16 ∧ 256 < 2 ^ fieldWidth cfg64x16 ∧
      shiftedAddr2 cfg64x16 0 9 = shiftedAddr2 cfg64x16 256 9 ∧
      highField cfg64x16 (0x1000000 >>> setShift cfg64x16) = 256 ∧
      extractSet cfg64x16 0 9 = extractSet cfg64x16 0x1000000 9 := by
  decide

/-- C10 fails as stated: in `cfg84`, for way 0, the inputs 0 and 33, whose (lowField,
highField) pairs are (0,0) and (1,1), get the same set index. -/
theorem hash_pairs_collide :
    0 < cfg84.assoc ∧
      (lowField cfg84 0, highField cfg84 0) = (0, 0) ∧
      (lowField cfg84 33, highField cfg84 33) = (1, 1) ∧
      hash cfg84 0 0 = hash cfg84 33 0 := by
  decide

/-- C10, as the code has it: for every configuration and every way up to the field width
`floorLog2(numSets) + floorLog2(assoc)`, `hash(., way)` is one-to-one in each field
separately: two inputs with the same set index and the same highField have the same lowField,
and, for a way of at most 8, two inputs with the same set index and the same lowField have the
same highField. -/
theorem hash_injective_per_field (p : Params) (x y way : Nat) (hway : way ≤ fieldWidth p)
    (h : hash p x way = hash p y way) :
    (highField p x = highField p y → lowField p x = lowField p y) ∧
      (way ≤ 8 → lowField p x = lowField p y → highField p x = highField p y) := by
  rw [hash_eq_fields, hash_eq_fields] at h
  constructor
  · intro hh
    rw [hh] at h
    exact Nat.xor_left_injective h
  · intro h8 hl
    rw [hl] at h
    exact shiftedAddr2_inj p _ _ way hway h8 (highField_lt p x) (highField_lt p y)
      (Nat.xor_right_injective h)

theorem hash_injective_per_field_witness :
    hash cfg84 37 3 = hash cfg84 1061 3 ∧
      ((highField cfg84 37 = highField cfg84 1061 → lowField cfg84 37 = lowField cfg84 1061) ∧
        (3 ≤ 8 → lowField cfg84 37 = lowField cfg84 1061 →
          highField cfg84 37 = highField cfg84 1061)) :=
  ⟨by decide, hash_injective_per_field cfg84 37 1061 3 (by decide) (by decide)⟩

/-! ## Way-sensitivity of `hash` -/

theorem shiftedAddr2_one_ne (p : Params) (way : Nat) (h1 : 1 ≤ way) (hw : way < fieldWidth p) :
    shiftedAddr2 p 1 way ≠ 1 := by
  intro h
  have hlt : (1 : Nat) < 2 ^ fieldWidth p := Nat.one_lt_two_pow (by omega)
  have hb := shiftedAddr2_testBit p 1 way 0 (by omega) hlt
  rw [h] at hb
  have hpos : 0 < fieldWidth p - way := by omega
  have hne : way ≠ 0 := by omega
  simp [hpos, Nat.testBit_one_eq_true_iff_self_eq_zero, hne] at hb

/-- C11, as the code has it: for every configuration and every way with `1 ≤ way` that is
below the field width `floorLog2(numSets) + floorLog2(assoc)`, there is a 64-bit input `a`
with `hash(a, way) ≠ hash(a, 0)`. -/
theorem hash_way_sensitive (p : Params) (way : Nat) (h1 : 1 ≤ way) (hw : way < fieldWidth p) :
    ∃ a, a < 2 ^ 64 ∧ hash p a way ≠ hash p a 0 := by
  have hle := fieldWidth_le p
  have hpos : 0 < fieldWidth p := by omega
  have hlt : (1 : Nat) < 2 ^ fieldWidth p := Nat.one_lt_two_pow (by omega)
  refine ⟨2 ^ fieldWidth p, Nat.pow_lt_pow_right (by decide) (by omega), ?_⟩
  have hlow : lowField p (2 ^ fieldWidth p) = 0 := by
    rw [lowField_eq]; exact Nat.mod_self _
  have hhigh : highField p (2 ^ fieldWidth p) = 1 := by
    rw [highField_eq, Nat.shiftRight_eq_div_pow, Nat.div_self (Nat.two_pow_pos _)]
    exact Nat.mod_eq_of_lt hlt
  rw [hash_eq_fields, hash_eq_fields, hlow, hhigh, shiftedAddr2_zero, Nat.zero_xor,
    Nat.zero_xor]
  exact shiftedAddr2_one_ne p way h1 hw

theorem hash_way_sensitive_witness :
    ∃ a, a < 2 ^ 64 ∧ hash cfg42 a 1 ≠ hash cfg42 a 0 :=
  hash_way_sensitive cfg42 1 (by decide) (by decide)

/-- C11 fails as stated: in `cfg1x2` (1 set, 2 ways, both powers of two) the field is 1 bit
wide, the transform for way 1 rotates it by its full width, and `hash(a, 1) = hash(a, 0)`
for every input `a`. -/
theorem hash_way_insensitive :
    isPowerOf2 cfg1x2.numSets = true ∧ isPowerOf2 cfg1x2.assoc = true ∧
      1 ≤ cfg1x2.numSets ∧ 2 ≤ cfg1x2.assoc ∧ 1 < cfg1x2.assoc ∧
      ∀ a, hash cfg1x2 a 1 = hash cfg1x2 a 0 := by
  refine ⟨by decide, by decide, by decide, by decide, by decide, ?_⟩
  intro a
  have hfix : ∀ x, x < 2 → shiftedAddr2 cfg1x2 x 1 = x := by decide
  have hlt : highField cfg1x2 a < 2 := highField_lt cfg1x2 a
  rw [hash_eq_fields, hash_eq_fields, shiftedAddr2_zero, hfix _ hlt]

/-! ## Construction of the indexing policy -/

/-- C12, as the code has it: the constructor of `ColumnAssociative` adds no check to those of
its base class: for every configuration whose number of sets and associativity are powers of
two, construction succeeds, with `msbShift = floorLog2(numSets) + floorLog2(assoc) - 1`. -/
theorem construct_ok (p : Params) (hs : isPowerOf2 p.numSets = true)
    (ha : isPowerOf2 p.assoc = true) :
    ColumnAssociativeParams.create p = Except.ok ⟨p, msbShift p⟩ := by
  simp [ColumnAssociativeParams.create, construct, BaseIndexingPolicy.construct, hs, ha,
    msbShift]

theorem construct_ok_witness :
    ColumnAssociativeParams.create cfg84 = Except.ok ⟨cfg84, msbShift cfg84⟩ :=
  construct_ok cfg84 (by decide) (by decide)

/-- C12 fails as stated: for `cfg1x8` (1 set, 8 ways) the field is 3 bits wide, so the ways
3 to 7 are not below the field width, and construction succeeds all the same. -/
theorem construct_1x8_succeeds :
    fieldWidth cfg1x8 = 3 ∧ 3 < cfg1x8.assoc ∧ ¬ (3 < fieldWidth cfg1x8) ∧
      ColumnAssociativeParams.create cfg1x8 = Except.ok ⟨cfg1x8, 2⟩ :=
  ⟨by decide, by decide, by decide, rfl⟩

end ColumnAssociative

/-! ## Construction of the tag store -/

namespace MicrotaggedTags

theorem create_ok_iff (p : MicrotaggedTagsParams) :
    (∃ obj, MicrotaggedTagsParams.create p = Except.ok obj) ↔
      (p.indexing_policy.isSome = true ∧ 4 ≤ p.block_size ∧
        isPowerOf2 p.block_size = true) := by
  unfold MicrotaggedTagsParams.create MicrotaggedTags.construct
  cases hip : p.indexing_policy with
  | none => simp
  | some ip =>
    by_cases h4 : p.block_size < 4
    · simp [h4]
    · cases hp : isPowerOf2 p.block_size with
      | false => simp [h4, hp]
      | true => simp [h4, hp]; omega

/-- C13 fails on the code: with 64-byte blocks, an indexing policy and no replacement policy,
`MicrotaggedTagsParams::create` returns a tag store whose replacement policy is null, where
a missing indexing policy, a block size below 4 and a block size that is not a power of two
are each fatal. -/
theorem create_without_replacement_policy :
    (∃ obj, MicrotaggedTagsParams.create paramsNoRP = Except.ok obj ∧
        obj.replacementPolicy = none) ∧
      MicrotaggedTagsParams.create { paramsNoRP with indexing_policy := none } =
        Except.error Fatal.noIndexingPolicy ∧
      MicrotaggedTagsParams.create { paramsNoRP with block_size := 2 } =
        Except.error Fatal.blockSize ∧
      MicrotaggedTagsParams.create { paramsNoRP with block_size := 48 } =
        Except.error Fatal.blockSize :=
  ⟨⟨_, rfl, rfl⟩, rfl, rfl, rfl⟩

/-! ## The microtag -/

theorem bits_lit (val f l : Nat) (hl : l ≤ f) (h : f + 1 - l ≤ 64) :
    bits val (f : Int) (l : Int) = (val / 2 ^ l) % 2 ^ (f + 1 - l) := by
  have h1 := bits_ofNat val (f + 1) l h (by omega)
  rw [Nat.shiftRight_eq_div_pow] at h1
  rw [← h1]
  congr 1
  push_cast
  ring

theorem hash_eq_microtagRef (addr : Nat) : hash addr = microtagRef addr := by
  have b1 : bits addr 19 15 = addr / 2 ^ 15 % 2 ^ 5 := by
    simpa using bits_lit addr 19 15 (by decide) (by decide)
  have b2 : bits addr 24 20 = addr / 2 ^ 20 % 2 ^ 5 := by
    simpa using bits_lit addr 24 20 (by decide) (by decide)
  have b3 : bits addr 25 25 = addr / 2 ^ 25 % 2 := by
    simpa using bits_lit addr 25 25 (by decide) (by decide)
  have b4 : bits addr 14 14 = addr / 2 ^ 14 % 2 := by
    simpa using bits_lit addr 14 14 (by decide) (by decide)
  have b5 : bits addr 26 26 = addr / 2 ^ 26 % 2 := by
    simpa using bits_lit addr 26 26 (by decide) (by decide)
  have b6 : bits addr 13 13 = addr / 2 ^ 13 % 2 := by
    simpa using bits_lit addr 13 13 (by decide) (by decide)
  have b7 : bits addr 27 27 = addr / 2 ^ 27 % 2 := by
    simpa using bits_lit addr 27 27 (by decide) (by decide)
  have b8 : bits addr 12 12 = addr / 2 ^ 12 % 2 := by
    simpa using bits_lit addr 12 12 (by decide) (by decide)
  have x5 : (addr / 2 ^ 15 % 2 ^ 5) ^^^ (addr / 2 ^ 20 % 2 ^ 5) < 2 ^ 5 :=
    Nat.xor_lt_two_pow (Nat.mod_lt _ (by decide)) (Nat.mod_lt _ (by decide))
  have x2 : (addr / 2 ^ 25 % 2) ^^^ (addr / 2 ^ 14 % 2) < 2 ^ 1 :=
    Nat.xor_lt_two_pow (Nat.mod_lt _ (by decide)) (Nat.mod_lt _ (by decide))
  have x1 : (addr / 2 ^ 26 % 2) ^^^ (addr / 2 ^ 13 % 2) < 2 ^ 1 :=
    Nat.xor_lt_two_pow (Nat.mod_lt _ (by decide)) (Nat.mod_lt _ (by decide))
  have m5 : (((addr / 2 ^ 15 % 2 ^ 5) ^^^ (addr / 2 ^ 20 % 2 ^ 5)) <<< 3) % 2 ^ 64 =
      ((addr / 2 ^ 15 % 2 ^ 5) ^^^ (addr / 2 ^ 20 % 2 ^ 5)) * 2 ^ 3 := by
    rw [Nat.shiftLeft_eq]
    apply Nat.mod_eq_of_lt
    omega
  have m2 : (((addr / 2 ^ 25 % 2) ^^^ (addr / 2 ^ 14 % 2)) <<< 2) % 2 ^ 64 =
      ((addr / 2 ^ 25 % 2) ^^^ (addr / 2 ^ 14 % 2)) * 2 ^ 2 := by
    rw [Nat.shiftLeft_eq]
    apply Nat.mod_eq_of_lt
    omega
  have m1 : (((addr / 2 ^ 26 % 2) ^^^ (addr / 2 ^ 13 % 2)) <<< 1) % 2 ^ 64 =
      ((addr / 2 ^ 26 % 2) ^^^ (addr / 2 ^ 13 % 2)) * 2 ^ 1 := by
    rw [Nat.shiftLeft_eq]
    apply Nat.mod_eq_of_lt
    omega
  unfold hash microtagRef
  simp only [b1, b2, b3, b4, b5, b6, b7, b8, m5, m2, m1, Nat.zero_or, Nat.or_assoc]

theorem microtagRef_lt (addr : Nat) : microtagRef addr < 2 ^ 8 := by
  have x5 : (addr / 2 ^ 15 % 2 ^ 5) ^^^ (addr / 2 ^ 20 % 2 ^ 5) < 2 ^ 5 :=
    Nat.xor_lt_two_pow (Nat.mod_lt _ (by decide)) (Nat.mod_lt _ (by decide))
  have x2 : (addr / 2 ^ 25 % 2) ^^^ (addr / 2 ^ 14 % 2) < 2 ^ 1 :=
    Nat.xor_lt_two_pow (Nat.mod_lt _ (by decide)) (Nat.mod_lt _ (by decide))
  have x1 : (addr / 2 ^ 26 % 2) ^^^ (addr / 2 ^ 13 % 2) < 2 ^ 1 :=
    Nat.xor_lt_two_pow (Nat.mod_lt _ (by decide)) (Nat.mod_lt _ (by decide))
  have x0 : (addr / 2 ^ 27 % 2) ^^^ (addr / 2 ^ 12 % 2) < 2 ^ 1 :=
    Nat.xor_lt_two_pow (Nat.mod_lt _ (by decide)) (Nat.mod_lt _ (by decide))
  unfold microtagRef
  refine Nat.or_lt_two_pow (Nat.or_lt_two_pow (Nat.or_lt_two_pow ?_ ?_) ?_) ?_ <;> omega

/-- C14: the microtag is at most 8 bits wide, `hash(addr) < 256` for every address, and it is
`((bits[19:15] XOR bits[24:20]) << 3) | ((bit25 XOR bit14) << 2) | ((bit26 XOR bit13) << 1)
| (bit27 XOR bit12)`, a function of the address alone; `hash(0x1000) = 1` and
`hash(0x2000) = 2`. -/
theorem microtag_spec (addr : Nat) :
    hash addr < 256 ∧ hash addr = microtagRef addr ∧ hash 0x1000 = 1 ∧ hash 0x2000 = 2 := by
  refine ⟨?_, hash_eq_microtagRef addr, by decide, by decide⟩
  rw [hash_eq_microtagRef]
  exact microtagRef_lt addr

/-- C15, as the code has it: the microtag is a function of the address bits 12 to 27 alone:
two addresses that agree on these sixteen bits have the same microtag, in whichever other
bits they differ. -/
theorem microtag_bits_12_27 (a b : Nat) (h : (a >>> 12) % 2 ^ 16 = (b >>> 12) % 2 ^ 16) :
    hash a = hash b := by
  rw [Nat.shiftRight_eq_div_pow, Nat.shiftRight_eq_div_pow] at h
  have e1 : a / 2 ^ 15 % 2 ^ 5 = b / 2 ^ 15 % 2 ^ 5 := by omega
  have e2 : a / 2 ^ 20 % 2 ^ 5 = b / 2 ^ 20 % 2 ^ 5 := by omega
  have e3 : a / 2 ^ 25 % 2 = b / 2 ^ 25 % 2 := by omega
  have e4 : a / 2 ^ 14 % 2 = b / 2 ^ 14 % 2 := by omega
  have e5 : a / 2 ^ 26 % 2 = b / 2 ^ 26 % 2 := by omega
  have e6 : a / 2 ^ 13 % 2 = b / 2 ^ 13 % 2 := by omega
  have e7 : a / 2 ^ 27 % 2 = b / 2 ^ 27 % 2 := by omega
  have e8 : a / 2 ^ 12 % 2 = b / 2 ^ 12 % 2 := by omega
  rw [hash_eq_microtagRef, hash_eq_microtagRef]
  unfold microtagRef
  rw [e1, e2, e3, e4, e5, e6, e7, e8]

theorem microtag_bits_12_27_witness : hash 0x1040 = hash 0x10001F80 :=
  microtag_bits_12_27 0x1040 0x10001F80 (by decide)

/-- C15 fails as stated: in `cfg42` the tag bits are the address bits from 8 up, the
addresses `0x1000` and `0x2000` agree on the bits below (block offset and set index) and
differ only in tag bits, and their microtags are 1 and 2. -/
theorem microtag_depends_on_tag_bits :
    setShift cfg42 = 6 ∧ tagShift cfg42 = 8 ∧
      0x1000 % 2 ^ tagShift cfg42 = 0x2000 % 2 ^ tagShift cfg42 ∧
      extractTag cfg42 0x1000 ≠ extractTag cfg42 0x2000 ∧
      hash 0x1000 = 1 ∧ hash 0x2000 = 2 := by
  decide

/-! ## `invalidate` -/

/-- C16: for every store state and every valid slot `b`, `invalidate(b)` clears the valid
flag of `b`, lowers `tagsInUse` by exactly 1, passes the replacement data of `b` to the
replacement policy's `invalidate`, and leaves the tag, the microtag, the security flag and
the replacement data of `b`, which stays the block at position `b`, and every field of every
other slot unchanged. -/
theorem invalidate_effect (st : TagStore) (b : Slot) (_hv : (st.blks b).valid = true) :
    ((invalidate st b).blks b).valid = false ∧
      (invalidate st b).tagsInUse = st.tagsInUse - 1 ∧
      (invalidate st b).rpInvalidated = st.rpInvalidated ++ [(st.blks b).replacementData] ∧
      ((invalidate st b).blks b).tag = (st.blks b).tag ∧
      ((invalidate st b).blks b).microtag = (st.blks b).microtag ∧
      ((invalidate st b).blks b).secure = (st.blks b).secure ∧
      ((invalidate st b).blks b).replacementData = (st.blks b).replacementData ∧
      (∀ s, s ≠ b → (invalidate st b).blks s = st.blks s) := by
  refine ⟨by simp [invalidate, baseInvalidate], rfl, rfl, by simp [invalidate, baseInvalidate],
    by simp [invalidate, baseInvalidate], by simp [invalidate, baseInvalidate],
    by simp [invalidate, baseInvalidate], ?_⟩
  intro s hs
  simp [invalidate, hs]

theorem invalidate_effect_witness :
    ((invalidate storeA ⟨0, 0⟩).blks ⟨0, 0⟩).valid = false ∧
      (invalidate storeA ⟨0, 0⟩).tagsInUse = storeA.tagsInUse - 1 ∧
      (invalidate storeA ⟨0, 0⟩).rpInvalidated =
        storeA.rpInvalidated ++ [(storeA.blks ⟨0, 0⟩).replacementData] ∧
      ((invalidate storeA ⟨0, 0⟩).blks ⟨0, 0⟩).tag = (storeA.blks ⟨0, 0⟩).tag ∧
      ((invalidate storeA ⟨0, 0⟩).blks ⟨0, 0⟩).microtag = (storeA.blks ⟨0, 0⟩).microtag ∧
      ((invalidate storeA ⟨0, 0⟩).blks ⟨0, 0⟩).secure = (storeA.blks ⟨0, 0⟩).secure ∧
      ((invalidate storeA ⟨0, 0⟩).blks ⟨0, 0⟩).replacementData =
        (storeA.blks ⟨0, 0⟩).replacementData ∧
      (∀ s, s ≠ ⟨0, 0⟩ → (invalidate storeA ⟨0, 0⟩).blks s = storeA.blks s) :=
  invalidate_effect storeA ⟨0, 0⟩ (by decide)

end MicrotaggedTags

/-! ## Bounds and the rotation form of `hash` -/

theorem two_pow_floorLog2Aux_le (fuel x : Nat) (hx : 1 ≤ x) : 2 ^ floorLog2Aux fuel x ≤ x := by
  induction fuel generalizing x with
  | zero => simpa [floorLog2Aux] using hx
  | succ n ih =>
    unfold floorLog2Aux
    split
    · have h2 := ih (x / 2) (by omega)
      rw [Nat.pow_succ]
      omega
    · simpa using hx

theorem two_pow_floorLog2_le (x : Nat) (hx : x ≠ 0) : 2 ^ floorLog2 x ≤ x := by
  unfold floorLog2
  by_cases h0 : x % 2 ^ 32 = 0
  · rw [h0]
    have : floorLog2Aux 31 0 = 0 := by decide
    rw [this]
    simp
    omega
  · have h1 := two_pow_floorLog2Aux_le 31 (x % 2 ^ 32) (by omega)
    exact le_trans h1 (Nat.mod_le _ _)

theorem isPowerOf2_ne_zero (n : Nat) (h : isPowerOf2 n = true) : n ≠ 0 := by
  intro h0
  subst h0
  simp [isPowerOf2] at h

namespace ColumnAssociative

theorem extractSet_le_hash (p : Params) (addr way : Nat) :
    extractSet p addr way ≤ hash p (addr >>> setShift p) way :=
  Nat.mod_le _ _

/-- C17: for power-of-two `numSets` and `assoc`, every address and every way below `assoc`
that is at most `floorLog2(numSets) + floorLog2(assoc)`, `extractSet(addr, way)` is below
`numSets * assoc`, the set index `extractSet(addr, way) >> floorLog2(assoc)` is below
`numSets` and the way index `extractSet(addr, way) & (assoc - 1)` is below `assoc`: the
access `sets[set][way]` of `getPossibleEntries` is in range. -/
theorem extractSet_in_bounds (p : Params) (addr way : Nat)
    (hs : isPowerOf2 p.numSets = true) (ha : isPowerOf2 p.assoc = true)
    (_hway : way < p.assoc) (hw : way ≤ floorLog2 p.numSets + floorLog2 p.assoc) :
    extractSet p addr way < p.numSets * p.assoc ∧
      extractSet p addr way >>> floorLog2 p.assoc < p.numSets ∧
      extractSet p addr way &&& (p.assoc - 1) < p.assoc := by
  have hs0 := isPowerOf2_ne_zero _ hs
  have ha0 := isPowerOf2_ne_zero _ ha
  have h1 := two_pow_floorLog2_le p.numSets hs0
  have h2 := two_pow_floorLog2_le p.assoc ha0
  have hlt : extractSet p addr way < 2 ^ floorLog2 p.numSets * 2 ^ floorLog2 p.assoc := by
    have := hash_lt p (addr >>> setShift p) way hw
    rw [fieldWidth, Nat.pow_add] at this
    exact lt_of_le_of_lt (extractSet_le_hash p addr way) this
  refine ⟨lt_of_lt_of_le hlt (Nat.mul_le_mul h1 h2), ?_, ?_⟩
  · rw [Nat.shiftRight_eq_div_pow]
    exact lt_of_lt_of_le ((Nat.div_lt_iff_lt_mul (Nat.two_pow_pos _)).2 hlt) h1
  · have := @Nat.and_le_right (extractSet p addr way) (p.assoc - 1)
    omega

theorem extractSet_in_bounds_witness :
    extractSet cfg42 0x200 1 < cfg42.numSets * cfg42.assoc ∧
      extractSet cfg42 0x200 1 >>> floorLog2 cfg42.assoc < cfg42.numSets ∧
      extractSet cfg42 0x200 1 &&& (cfg42.assoc - 1) < cfg42.assoc :=
  extractSet_in_bounds cfg42 0x200 1 (by decide) (by decide) (by decide) (by decide)

theorem rotr_testBit (w h k i : Nat) :
    (rotr w h k).testBit i =
      (h.testBit (k + i) ||
        (decide (i ≥ w - k) && (decide (i - (w - k) < k) && h.testBit (i - (w - k))))) := by
  simp [rotr, Nat.testBit_or, Nat.testBit_shiftRight, Nat.testBit_shiftLeft,
    Nat.testBit_mod_two_pow]

theorem shiftedAddr2_eq_rotr (p : Params) (h way : Nat) (hw : way ≤ fieldWidth p)
    (h8 : way ≤ 8) (hh : h < 2 ^ fieldWidth p) :
    shiftedAddr2 p h way = rotr (fieldWidth p) h way := by
  apply Nat.eq_of_testBit_eq
  intro i
  rw [shiftedAddr2_testBit p h way i hw hh, rotr_testBit]
  have hhi : ∀ j, fieldWidth p ≤ j → h.testBit j = false := by
    intro j hj
    exact Nat.testBit_lt_two_pow (lt_of_lt_of_le hh (Nat.pow_le_pow_right (by decide) hj))
  by_cases hi : i < fieldWidth p - way
  · have hnot : ¬ (i ≥ fieldWidth p - way) := by omega
    simp [hi, hnot, Nat.add_comm]
  · have hge : i ≥ fieldWidth p - way := by omega
    have hz : h.testBit (way + i) = false := hhi _ (by omega)
    by_cases hi2 : i < fieldWidth p
    · have hlt : i - (fieldWidth p - way) < way := by omega
      have hlt8 : i - (fieldWidth p - way) < 8 := by omega
      simp [hi, hge, hz, hi2, hlt, hlt8]
    · have hnlt : ¬ (i - (fieldWidth p - way) < way) := by omega
      simp [hi, hge, hz, hi2, hnlt]

/-- C18: with `w = msbShift + 1`, `low` the bits `0 .. w-1` and `high` the bits `w .. 2w-1`
of the input, `hash(x, 0) = low XOR high`, and for every way with `1 ≤ way < w` and
`way ≤ 8`, `hash(x, way) = low XOR rotr_w(high, way)`, where
`rotr_w(h, k) = (h >> k) | ((h mod 2^k) << (w - k))`. -/
theorem hash_eq_hashRef (p : Params) (x : Nat) :
    msbShift p + 1 = (fieldWidth p : Int) ∧
      hash p x 0 = (x % 2 ^ fieldWidth p) ^^^ (x / 2 ^ fieldWidth p % 2 ^ fieldWidth p) ∧
      (∀ way, 1 ≤ way → way < fieldWidth p → way ≤ 8 →
        hash p x way =
          (x % 2 ^ fieldWidth p) ^^^
            rotr (fieldWidth p) (x / 2 ^ fieldWidth p % 2 ^ fieldWidth p) way) ∧
      (∀ way, 1 ≤ way → way < fieldWidth p → way ≤ 8 →
        hash p x way = hashRef (fieldWidth p) x way) := by
  have hhf : highField p x = x / 2 ^ fieldWidth p % 2 ^ fieldWidth p := by
    rw [highField_eq, Nat.shiftRight_eq_div_pow]
  have key : ∀ way, 1 ≤ way → way < fieldWidth p → way ≤ 8 →
      hash p x way = hashRef (fieldWidth p) x way := by
    intro way _ hw h8
    rw [hash_eq_fields, lowField_eq,
      shiftedAddr2_eq_rotr p _ way (by omega) h8 (highField_lt p x), hhf]
    rfl
  refine ⟨by rw [msbShift_eq]; ring, ?_, key, key⟩
  rw [hash_eq_fields, shiftedAddr2_zero, lowField_eq, hhf]

theorem hash_eq_hashRef_witness :
    hash cfg84 0x2A5 3 = (0x2A5 % 2 ^ fieldWidth cfg84) ^^^
        rotr (fieldWidth cfg84) (0x2A5 / 2 ^ fieldWidth cfg84 % 2 ^ fieldWidth cfg84) 3 ∧
      hash cfg84 0x2A5 3 = hashRef (fieldWidth cfg84) 0x2A5 3 :=
  ⟨(hash_eq_hashRef cfg84 0x2A5).2.2.1 3 (by decide) (by decide) (by decide),
    (hash_eq_hashRef cfg84 0x2A5).2.2.2 3 (by decide) (by decide) (by decide)⟩

theorem shiftedAddr2_zero_field (p : Params) (way : Nat) (hw : way ≤ fieldWidth p) :
    shiftedAddr2 p 0 way = 0 := by
  apply Nat.eq_of_testBit_eq
  intro i
  rw [shiftedAddr2_testBit p 0 way i hw (Nat.two_pow_pos _)]
  simp

/-- C19, as the code has it: for every configuration and every address whose highField is
zero, for every way below `assoc` that is at most the field width `w`, `extractSet(addr, way)`
is the lowField reduced modulo `2 ^ 32`, the `uint32_t` that `extractSet` returns (the
lowField itself when `w ≤ 32`), and the candidate of `getPossibleEntries(addr)` for that way
is the same slot as the candidate for way 0. -/
theorem extractSet_high_zero (p : Params) (addr way : Nat)
    (hz : highField p (addr >>> setShift p) = 0) (hway : way < p.assoc)
    (hw : way ≤ fieldWidth p) :
    extractSet p addr way = lowField p (addr >>> setShift p) % 2 ^ 32 ∧
      (fieldWidth p ≤ 32 → extractSet p addr way = lowField p (addr >>> setShift p)) ∧
      (getPossibleEntries p addr)[way]? =
        some ⟨(lowField p (addr >>> setShift p) % 2 ^ 32) >>> floorLog2 p.assoc,
          (lowField p (addr >>> setShift p) % 2 ^ 32) &&& (p.assoc - 1)⟩ ∧
      (getPossibleEntries p addr)[way]? = (getPossibleEntries p addr)[0]? := by
  have he : ∀ v, v ≤ fieldWidth p →
      extractSet p addr v = lowField p (addr >>> setShift p) % 2 ^ 32 := by
    intro v hv
    unfold extractSet
    rw [hash_eq_fields, hz, shiftedAddr2_zero_field p v hv, Nat.xor_zero]
  have hslot : ∀ v, v < p.assoc → v ≤ fieldWidth p →
      (getPossibleEntries p addr)[v]? =
        some ⟨(lowField p (addr >>> setShift p) % 2 ^ 32) >>> floorLog2 p.assoc,
          (lowField p (addr >>> setShift p) % 2 ^ 32) &&& (p.assoc - 1)⟩ := by
    intro v hv hvw
    simp [getPossibleEntries, List.getElem?_map, List.getElem?_range hv, he v hvw]
  refine ⟨he way hw, ?_, hslot way hway hw, ?_⟩
  · intro h32
    rw [he way hw]
    apply Nat.mod_eq_of_lt
    exact lt_of_lt_of_le (lowField_lt p _) (Nat.pow_le_pow_right (by decide) h32)
  · rw [hslot way hway hw, hslot 0 (by omega) (by omega)]

theorem extractSet_high_zero_witness :
    (extractSet cfg42 0x1000 1 = lowField cfg42 (0x1000 >>> setShift cfg42) ∧
        (getPossibleEntries cfg42 0x1000)[1]? = (getPossibleEntries cfg42 0x1000)[0]?) ∧
      getPossibleEntries cfg42 0x1000 = [⟨0, 0⟩, ⟨0, 0⟩] ∧
      getPossibleEntries cfg42 0x2000 = [⟨0, 0⟩, ⟨0, 0⟩] :=
  ⟨⟨(extractSet_high_zero cfg42 0x1000 1 (by decide) (by decide) (by decide)).2.1 (by decide),
      (extractSet_high_zero cfg42 0x1000 1 (by decide) (by decide) (by decide)).2.2.2⟩,
    by decide, by decide⟩

/-- C19 fails as stated: in `cfgWide`, whose fields are 33 bits wide, the address `2 ^ 38`
has highField 0 and lowField `2 ^ 32`, way 0 is below both `assoc` and the field width, and
`extractSet(addr, 0)`, a `uint32_t`, is 0, not the lowField. -/
theorem extractSet_high_zero_narrowed :
    highField cfgWide (2 ^ 38 >>> setShift cfgWide) = 0 ∧
      lowField cfgWide (2 ^ 38 >>> setShift cfgWide) = 2 ^ 32 ∧
      0 < min cfgWide.assoc (fieldWidth cfgWide + 1) ∧
      extractSet cfgWide (2 ^ 38) 0 = 0 ∧
      extractSet cfgWide (2 ^ 38) 0 ≠ lowField cfgWide (2 ^ 38 >>> setShift cfgWide) := by
  decide

end ColumnAssociative

end Gem5
